import Mathlib

/-!
# Verification of the ReDraft text-transformation pipeline

A shallow embedding of the algorithmic core of `src/index.js`:
the ContentProtector (`stripProtectedBlocks` / `restoreProtectedBlocks`),
the ResponseParser (`parseChangelog`), the PovDetector (`detectPov`)
and the DiffEngine (`tokenize` / `lcsTable` / `computeWordDiff`).

Texts are modelled as `List Char` / `String` (Unicode scalar values).
JavaScript regular-expression passes are hand-compiled to deterministic
scanners; every such compilation step is justified in a comment on the
definition.  Recursions that are not structural in their list argument
take an explicit fuel argument, instantiated with the input length; each
scanner step consumes at least one character, so this fuel is sufficient,
and all definitions reduce by `decide` / `rfl`.
-/

namespace ReDraft

/-! ## Character classes

`jsWs` is the JavaScript `\s` class (WhiteSpace ∪ LineTerminator), which is
also exactly the character set removed by `String.prototype.trim`.
`isWordChar` is the JavaScript `\w` class `[A-Za-z0-9_]`.
Case-insensitive (`i` flag) matching of ASCII patterns is modelled by the
ASCII case fold `asciiLower`; the JS canonicalizer never maps a non-ASCII
character to an ASCII one in non-Unicode regexps, so folding only ASCII
letters is faithful for the ASCII patterns that occur in the source. -/

def jsWs (c : Char) : Bool :=
  c = ' ' ∨ c = '\t' ∨ c = '\n' ∨ c = '\r' ∨ c.toNat = 0xb ∨ c.toNat = 0xc ∨
  c.toNat = 0xa0 ∨ c.toNat = 0x1680 ∨ (0x2000 ≤ c.toNat ∧ c.toNat ≤ 0x200a) ∨
  c.toNat = 0x2028 ∨ c.toNat = 0x2029 ∨ c.toNat = 0x202f ∨ c.toNat = 0x205f ∨
  c.toNat = 0x3000 ∨ c.toNat = 0xfeff

def isWordChar (c : Char) : Bool :=
  ('A' ≤ c ∧ c ≤ 'Z') ∨ ('a' ≤ c ∧ c ≤ 'z') ∨ ('0' ≤ c ∧ c ≤ '9') ∨ c = '_'

/-- Characters allowed in a pass-3 tag name: `[A-Z_]` under the `i` flag,
i.e. ASCII letters and underscore. -/
def isTagChar (c : Char) : Bool :=
  ('A' ≤ c ∧ c ≤ 'Z') ∨ ('a' ≤ c ∧ c ≤ 'z') ∨ c = '_'

def asciiLower (c : Char) : Char :=
  if 'A' ≤ c ∧ c ≤ 'Z' then Char.ofNat (c.toNat + 32) else c

def asciiUpper (c : Char) : Char :=
  if 'a' ≤ c ∧ c ≤ 'z' then Char.ofNat (c.toNat - 32) else c

def upperList (l : List Char) : List Char := l.map asciiUpper

/-- `String.prototype.toLowerCase`, as far as the pronoun-counting scan can
observe it.  JS applies the unconditional Unicode lowercase mapping.  The
only code point with a multi-character lowercase mapping is U+0130 (LATIN
CAPITAL LETTER I WITH DOT ABOVE, mapped to `i` U+0307), and the only
non-ASCII code points whose lowercase mapping contains an ASCII character
are U+0130 and U+212A (KELVIN SIGN, mapped to `k`).  Every other non-ASCII
code point lowers to a non-ASCII code point; such characters are non-word
characters before and after the mapping and can never equal a character of
the ASCII pronoun alternatives, so the counting scan cannot distinguish
them from the original and they are modelled as the identity. -/
def jsToLower (l : List Char) : List Char :=
  (l.map fun c =>
    if c.toNat = 0x130 then ['i', Char.ofNat 0x307]
    else if c.toNat = 0x212a then ['k']
    else [asciiLower c]).flatten

/-- Case-insensitive prefix test (ASCII fold on both sides). -/
def prefixCI : List Char → List Char → Bool
  | [], _ => true
  | _ :: _, [] => false
  | p :: ps, c :: cs => asciiLower p = asciiLower c ∧ prefixCI ps cs

/-- First index at which `pat` occurs case-insensitively. -/
def findCI (pat : List Char) : List Char → Option Nat
  | [] => if prefixCI pat [] then some 0 else none
  | c :: cs => if prefixCI pat (c :: cs) then some 0 else (findCI pat cs).map (· + 1)

/-- First index at which `pat` occurs (case-sensitive). -/
def findPat (pat : List Char) : List Char → Option Nat
  | [] => if pat.isPrefixOf [] then some 0 else none
  | c :: cs => if pat.isPrefixOf (c :: cs) then some 0 else (findPat pat cs).map (· + 1)

/-! ## Decimal numerals

`natDecimal n` is the canonical decimal numeral JavaScript produces for the
template substitution `${n}` of a non-negative integer; `parseDec` is the
numeric value of a digit string, which agrees with `parseInt(ds, 10)` on all
values that can index a JavaScript array. -/

def charVal (c : Char) : Nat := c.toNat - 48

def parseDec (ds : List Char) : Nat := ds.foldl (fun a c => 10 * a + charVal c) 0

def natDecimalAux : Nat → Nat → List Char
  | 0, _ => []
  | fuel + 1, n =>
    if n < 10 then [Char.ofNat (48 + n)]
    else natDecimalAux fuel (n / 10) ++ [Char.ofNat (48 + n % 10)]

def natDecimal (n : Nat) : List Char := natDecimalAux (n + 1) n

/-! ## Generic replacement scanners

`String.prototype.replace` with a `g`-flagged regexp scans left to right:
at each position it tries the pattern; on success the match is replaced and
scanning resumes after it, on failure it advances one character.  Every
pattern in the source matches at least one character, so the input length is
always enough fuel.

`collectScan` is the shape used by the three passes of
`stripProtectedBlocks`: the matcher reports the match length and whether the
replacement callback pushes the match onto `blocks` and substitutes an
indexed `[PROTECTED_i]` placeholder (`true`) or returns the match unchanged
(`false`, pass 3 on reserved tags).

`rewriteScan` is the shape used by `restoreProtectedBlocks` and the final
tag cleanup of `parseChangelog`: the matcher reports the match length and
the literal replacement. -/

def placeholderList (i : Nat) : List Char :=
  "[PROTECTED_".toList ++ natDecimal i ++ [']']

def collectScan (m : List Char → Option (Nat × Bool)) :
    Nat → List Char → List String → List Char × List String
  | _, [], bs => ([], bs)
  | 0, l, bs => (l, bs)
  | fuel + 1, c :: cs, bs =>
    match m (c :: cs) with
    | some (len, doPush) =>
      let matched := (c :: cs).take len
      let rest := cs.drop (len - 1)
      if doPush then
        let r := collectScan m fuel rest (bs ++ [String.mk matched])
        (placeholderList bs.length ++ r.1, r.2)
      else
        let r := collectScan m fuel rest bs
        (matched ++ r.1, r.2)
    | none =>
      let r := collectScan m fuel cs bs
      (c :: r.1, r.2)

def rewriteScan (m : List Char → Option (Nat × List Char)) :
    Nat → List Char → List Char
  | _, [] => []
  | 0, l => l
  | fuel + 1, c :: cs =>
    match m (c :: cs) with
    | some (len, rep) => rep ++ rewriteScan m fuel (cs.drop (len - 1))
    | none => c :: rewriteScan m fuel cs

/-! ## ContentProtector: `stripProtectedBlocks`

Pass 1 — `/```[\s\S]*?```/g`: a match at a position requires the literal
fence ```` ``` ```` there and, non-greedily, the earliest later fence; both
are case-sensitive literals, so the lazy middle is simply "up to the first
closing fence". -/

def fenceChars : List Char := ['`', '`', '`']

def matchFenceAt (l : List Char) : Option (Nat × Bool) :=
  if fenceChars.isPrefixOf l then
    match findPat fenceChars (l.drop 3) with
    | some q => some (3 + q + 3, true)
    | none => none
  else none

/-! Pass 2 — ``new RegExp(`<((?:details|div|table|section|aside|article|nav|pre|fieldset|figure|\w+[-_]\w[\w-]*))(\b[^>]*)>[\s\S]*?<\/\1>`, 'gi')``.

Hand-compilation of the backtracking search at one position:

* group 1 tries the ten fixed tag names in declaration order (the `i` flag
  makes them case-insensitive), then the custom-element alternative
  `\w+[-_]\w[\w-]*`.  Inside that alternative `\w+` prefers the longest
  word-character run, backtracking to any shorter prefix whose successor
  character is `-` or `_` (only positions followed by `-`/`_` can satisfy
  the `[-_]` atom), and `[\w-]*` prefers the longest run, backtracking one
  character at a time; so the custom candidates are enumerated with the
  `\w+` split point descending and then the `[\w-]*` length descending.
* for each candidate tag text `T` (captured with its original case), `\b`
  requires the word-ness of `T`'s last character and of the following
  character (end of input counts as non-word) to differ;
* `[^>]*` cannot cross a `>`, so the following `>` is necessarily the first
  `>` after the tag — no choice point;
* the lazy `[\s\S]*?` followed by the backreference `<\/\1>` selects the
  earliest case-insensitive occurrence of `</T>` after that `>`.

The first candidate for which all of this succeeds gives the match, which
is exactly the order the backtracking engine explores. -/

def blockTagsList : List String :=
  ["details", "div", "table", "section", "aside", "article", "nav", "pre",
   "fieldset", "figure"]

def fixedCandidates (rest : List Char) : List (List Char) :=
  blockTagsList.filterMap fun t =>
    if prefixCI t.toList rest then some (rest.take t.toList.length) else none

def customCandidates (rest : List Char) : List (List Char) :=
  let runLen := (rest.takeWhile isWordChar).length
  (((List.range runLen).reverse.map (· + 1)).map fun p1 =>
    match rest.drop p1 with
    | sep :: r2 =>
      if sep = '-' ∨ sep = '_' then
        match r2 with
        | c2 :: r3 =>
          if isWordChar c2 then
            let tl := r3.takeWhile fun c => isWordChar c ∨ c = '-'
            (List.range (tl.length + 1)).reverse.map fun k =>
              rest.take p1 ++ [sep, c2] ++ tl.take k
          else []
        | [] => []
      else []
    | [] => []).flatten

def tryCandidate (l : List Char) (t : List Char) : Option Nat :=
  let afterTag := 1 + t.length
  let lastW := isWordChar (t.getLastD ' ')
  let nextW := match l.drop afterTag with
    | [] => false
    | c :: _ => isWordChar c
  if lastW ≠ nextW then
    match (l.drop afterTag).findIdx? (· = '>') with
    | some g =>
      let closePat := '<' :: '/' :: t ++ ['>']
      match findCI closePat (l.drop (afterTag + g + 1)) with
      | some q => some (afterTag + g + 1 + q + closePat.length)
      | none => none
    | none => none
  else none

def matchBlockTagAt (l : List Char) : Option (Nat × Bool) :=
  match l with
  | '<' :: rest =>
    ((fixedCandidates rest ++ customCandidates rest).findSome?
      (tryCandidate l)).map (·, true)
  | _ => none

/-! Pass 3 — `/\[([A-Z_]+)\][\s\S]*?\[\/\1\]/gi`.  Under the `i` flag the
class `[A-Z_]` also matches lower-case letters.  The greedy `[A-Z_]+` must
be followed by the literal `]`; since no tag character is `]`, the only
viable capture is the full tag-character run.  The lazy middle selects the
earliest case-insensitive occurrence of the backreferenced closer `[/T]`.
The replacement callback keeps the match unchanged (and pushes nothing)
when the captured tag upper-cases to `CHANGELOG` or starts (upper-cased)
with `PROTECTED`; the reserved `REFINED` tag gets no such exemption. -/

def isReservedTag (run : List Char) : Bool :=
  upperList run = "CHANGELOG".toList ∨ "PROTECTED".toList.isPrefixOf (upperList run)

def matchBracketAt (l : List Char) : Option (Nat × Bool) :=
  match l with
  | '[' :: rest =>
    let run := rest.takeWhile isTagChar
    if run.isEmpty then none
    else
      match rest.drop run.length with
      | ']' :: rest2 =>
        let closePat := '[' :: '/' :: run ++ [']']
        match findCI closePat rest2 with
        | some q => some (1 + run.length + 1 + q + closePat.length, !isReservedTag run)
        | none => none
      | _ => none
  | _ => none

/-- `stripProtectedBlocks` from `src/index.js`: three ordered replacement
passes over the text, sharing one `blocks` accumulator, each operating on
the output of the previous pass. -/
def stripProtectedBlocks (text : String) : String × List String :=
  let l0 := text.toList
  let r1 := collectScan matchFenceAt l0.length l0 []
  let r2 := collectScan matchBlockTagAt r1.1.length r1.1 r1.2
  let r3 := collectScan matchBracketAt r2.1.length r2.1 r2.2
  (String.mk r3.1, r3.2)

/-! ## ContentProtector: `restoreProtectedBlocks`

The replacement pass compiles `/\[PROTECTED_(\d+)\]/g` (case-sensitive):
after the literal `[PROTECTED_` the greedy `\d+` must be followed by `]`,
so the capture is the full digit run.  `blocks[parseInt(idx,10)] || ''`
is `List.getD` with default `""` (an out-of-range index reads `undefined`,
and `undefined || ''` and `'' || ''` are both `''`; `parseInt` agrees with
`parseDec` on every index small enough to be an array index).  The safety
net then appends `'\n' + blocks[i]` for every stored block whose
placeholder token does not occur in the *input* text. -/

def matchPlaceholderAt (l : List Char) : Option (Nat × Nat) :=
  if "[PROTECTED_".toList.isPrefixOf l then
    let rest := l.drop 11
    let ds := rest.takeWhile Char.isDigit
    if ds.isEmpty then none
    else
      match rest.drop ds.length with
      | ']' :: _ => some (parseDec ds, 11 + ds.length + 1)
      | _ => none
  else none

def placeholderRep (blocks : List String) (l : List Char) : Option (Nat × List Char) :=
  (matchPlaceholderAt l).map fun p => (p.2, (blocks.getD p.1 "").toList)

def replaceProtScan (blocks : List String) (l : List Char) : List Char :=
  rewriteScan (placeholderRep blocks) l.length l

/-- `text.includes('[PROTECTED_' + i + ']')`. -/
def occursPlaceholder (i : Nat) (text : String) : Bool :=
  decide (placeholderList i <:+: text.toList)

def restoreAppendTail (text : String) (blocks : List String) : List Char :=
  ((List.range blocks.length).map fun i =>
    if occursPlaceholder i text then [] else '\n' :: (blocks.getD i "").toList).flatten

def restoreProtectedBlocks (text : String) (blocks : List String) : String :=
  String.mk (replaceProtScan blocks text.toList ++ restoreAppendTail text blocks)

/-! ## ResponseParser: `parseChangelog`

`String.prototype.trim` removes `jsWs` characters from both ends. -/

def trimL (l : List Char) : List Char :=
  ((l.dropWhile jsWs).reverse.dropWhile jsWs).reverse

/-! The extraction regexps have the shape
`/\[TAG\]\s*([\s\S]*?)\s*\[\/TAG\]/i` (non-global, so only the first match
counts).  A match starts at the first case-insensitive occurrence of the
opener; the close is the earliest case-insensitive occurrence of the closer
after it (a closer exists after a later opener only if one exists after the
first opener, so taking the first opener is exactly the engine's leftmost
match).  The captured group is the text between the tags minus the
whitespace eaten by the two `\s*`; since every use of the capture in the
source immediately applies `.trim()`, we return the full inner text and let
the caller's `trimL` absorb the `\s*` — extensionally the same value. -/

def refinedInner (l : List Char) : Option (List Char) := do
  let i ← findCI "[REFINED]".toList l
  let rest := l.drop (i + 9)
  let c ← findCI "[/REFINED]".toList rest
  return rest.take c

/-- The first closed changelog pair: its inner text and the remainder of
the reply after the closing tag. -/
def changelogClosed (l : List Char) : Option (List Char × List Char) := do
  let i ← findCI "[CHANGELOG]".toList l
  let rest := l.drop (i + 11)
  let c ← findCI "[/CHANGELOG]".toList rest
  return (rest.take c, rest.drop (c + 12))

/-- Priority 3 uses `/\[CHANGELOG\]\s*([\s\S]*?)$/i`: everything after the
first opener, minus the whitespace eaten by the greedy `\s*`. -/
def changelogOpenRemainder (l : List Char) : Option (List Char) :=
  (findCI "[CHANGELOG]".toList l).map fun i => (l.drop (i + 11)).dropWhile jsWs

/-! `remainder.search(/\n\s*\n/)`: the first index holding a `'\n'` whose
following maximal `\s` run contains another `'\n'` (the character after a
maximal whitespace run is never `'\n'`, so the second newline of any match
lies inside that run). -/

def blankSplitIdx : List Char → Option Nat
  | [] => none
  | c :: cs =>
    if c = '\n' ∧ '\n' ∈ cs.takeWhile jsWs then some 0
    else (blankSplitIdx cs).map (· + 1)

/-- The final cleanup `/\[\/?(?:REFINED|CHANGELOG)\]/gi` replaced by `''`.
The four concrete markers are mutually exclusive as prefixes, so ordered
alternation is a plain first-match test. -/
def matchTagMarkerAt (l : List Char) : Option (Nat × List Char) :=
  (["[REFINED]", "[/REFINED]", "[CHANGELOG]", "[/CHANGELOG]"].findSome? fun p =>
    if prefixCI p.toList l then some (p.toList.length, ([] : List Char)) else none)

def cleanupTags (l : List Char) : List Char := rewriteScan matchTagMarkerAt l.length l

structure ParsedResponse where
  changelog : Option String
  refined : String
  deriving DecidableEq, Repr

/-- The three extraction strategies of `parseChangelog`, before the
fallback: the optional changelog inner text and the optional refined text,
both still untrimmed.  In priority 2 the refined text is the remainder
after the closing tag; in priority 3 the remainder after the opener is
split at the first blank line. -/
def parseRaw (l : List Char) : Option (List Char) × Option (List Char) :=
  match refinedInner l with
  | some inner => (((changelogClosed l).map (·.1)), some inner)
  | none =>
    match changelogClosed l with
    | some (inner, after) => (some inner, some after)
    | none =>
      match changelogOpenRemainder l with
      | some rem =>
        match blankSplitIdx rem with
        | some q => (some (rem.take q), some (rem.drop q))
        | none => (none, none)
      | none => (none, none)

/-- `parseChangelog` from `src/index.js`.  The JS fallback guard
`if (!refined)` fires both when no strategy assigned `refined` and when the
assigned value trimmed to the empty string (empty strings are falsy); the
changelog found by an earlier strategy is kept either way.  The final
cleanup strips leftover tag markers and trims once more. -/
def parseChangelog (responseText : String) : ParsedResponse :=
  let l := responseText.toList
  let (chg, ref) := parseRaw l
  let refinedTrimmed : List Char := match ref with
    | some x => trimL x
    | none => []
  let refined1 : List Char :=
    if refinedTrimmed.isEmpty then trimL l else refinedTrimmed
  { changelog := (chg.map fun x => String.mk (trimL x)),
    refined := String.mk (trimL (cleanupTags refined1)) }

/-! ## PovDetector: `detectPov`

The three counting regexps have the shape `/\b(p₁|p₂|…)\b/g` over the
lower-cased text.  Every alternative starts and ends with a word character,
so the leading `\b` demands a non-word (or absent) previous character and
the trailing `\b` a non-word (or absent) next character.  The engine tries
the alternatives in source order at each position, backtracking to the next
alternative when the trailing `\b` fails, and a global scan advances one
character on failure and past the match on success. -/

def tryAlts (alts : List String) (l : List Char) : Option Nat :=
  alts.findSome? fun a =>
    if a.toList.isPrefixOf l then
      match l.drop a.toList.length with
      | [] => some a.toList.length
      | c :: _ => if isWordChar c then none else some a.toList.length
    else none

def countScan (alts : List String) : Nat → Bool → List Char → Nat
  | _, _, [] => 0
  | 0, _, _ => 0
  | fuel + 1, prevW, c :: cs =>
    match (if prevW then none else tryAlts alts (c :: cs)) with
    | some n => 1 + countScan alts fuel true (cs.drop (n - 1))
    | none => countScan alts fuel (isWordChar c) cs

def countMatches (alts : List String) (l : List Char) : Nat :=
  countScan alts l.length false l

def firstAlts : List String := ["i", "me", "my", "myself", "mine"]
def secondAlts : List String := ["you", "your", "yours", "yourself"]
def thirdAlts : List String :=
  ["he", "she", "they", "him", "her", "them", "his", "hers", "their", "theirs"]

/-- `detectPov` from `src/index.js`.  The JS comparison
`first > total * 0.2` is over doubles; for every pair of natural numbers
below `2^53` (any feasible match count) it coincides with the exact
`5 * first > total`: the double nearest `0.2` is `(1/5)·(1 + 2⁻⁵⁴)`, so
`total * 0.2` rounds to `total / 5` exactly when `5 ∣ total` and otherwise
differs from `total / 5` by far less than the `1/5` gap separating it from
any integer. -/
def firstCount (text : String) : Nat := countMatches firstAlts (jsToLower text.toList)
def secondCount (text : String) : Nat := countMatches secondAlts (jsToLower text.toList)
def thirdCount (text : String) : Nat := countMatches thirdAlts (jsToLower text.toList)

def detectPov (text : String) : Option String :=
  let first := firstCount text
  let second := secondCount text
  let third := thirdCount text
  let total := first + second + third
  if total < 3 then none
  else if 5 * first > total ∧ 5 * second > total then some "1.5"
  else if first > second ∧ first > third then some "1st"
  else if second > first ∧ second > third then some "2nd"
  else if third > first ∧ third > second then some "3rd"
  else none

/-! ## DiffEngine

`tokenize` — `text.match(/\S+|\s+/g) || []`: the maximal runs of non-space
and space characters in order (`\S+` and `\s+` are tried greedily at each
position, and matches resume where the previous ended, so the matches are
exactly the maximal runs and every character lands in exactly one token). -/

def tokenizeAux : Nat → List Char → List String
  | _, [] => []
  | 0, _ => []
  | fuel + 1, c :: cs =>
    let run := cs.takeWhile fun d => jsWs d = jsWs c
    String.mk (c :: run) :: tokenizeAux fuel (cs.drop run.length)

def tokenize (text : String) : List String := tokenizeAux text.toList.length text.toList

/-- `lcsTable` from `src/index.js`: `dp[i][j]` is the LCS length of the
first `i` tokens of `a` and the first `j` tokens of `b`, stored in a
`Uint16Array`, whose assignment truncates modulo `2^16` (only the `+ 1`
case can leave the 16-bit range, since `max` of stored cells is stored).
The iterative fill and this recursion with memoization coincide cell by
cell.  Fuel `i + j` suffices: every recursive call strictly decreases it. -/
def lcsTF (a b : List String) : Nat → Nat → Nat → Nat
  | _, 0, _ => 0
  | _, _ + 1, 0 => 0
  | 0, _ + 1, _ + 1 => 0
  | fuel + 1, i + 1, j + 1 =>
    if a.getD i "" = b.getD j "" then (lcsTF a b fuel i j + 1) % 65536
    else max (lcsTF a b fuel i (j + 1)) (lcsTF a b fuel (i + 1) j)

def tableAt (a b : List String) (i j : Nat) : Nat := lcsTF a b (i + j) i j

inductive SegKind where
  | equal
  | delete
  | insert
  deriving DecidableEq, Repr

structure DiffSeg where
  kind : SegKind
  text : String
  deriving DecidableEq, Repr

/-- The backtrace loop of `computeWordDiff`, producing segments in push
order (the source reverses them afterwards).  The guard structure follows
the source: token equality first (both indices positive), then the insert
branch when `j > 0` and (`i === 0` or `dp[i][j-1] >= dp[i-1][j]`), else
delete.  Each step decrements `i + j` by at least one, so fuel `i + j`
suffices. -/
def backtraceAux (a b : List String) (dp : Nat → Nat → Nat) :
    Nat → Nat → Nat → List DiffSeg
  | 0, _, _ => []
  | _ + 1, 0, 0 => []
  | fuel + 1, 0, j + 1 => ⟨.insert, b.getD j ""⟩ :: backtraceAux a b dp fuel 0 j
  | fuel + 1, i + 1, 0 => ⟨.delete, a.getD i ""⟩ :: backtraceAux a b dp fuel i 0
  | fuel + 1, i + 1, j + 1 =>
    if a.getD i "" = b.getD j "" then
      ⟨.equal, a.getD i ""⟩ :: backtraceAux a b dp fuel i j
    else if dp (i + 1) j ≥ dp i (j + 1) then
      ⟨.insert, b.getD j ""⟩ :: backtraceAux a b dp fuel (i + 1) j
    else
      ⟨.delete, a.getD i ""⟩ :: backtraceAux a b dp fuel i (j + 1)

/-- The merge loop: consecutive segments of the same kind are concatenated. -/
def mergeAux (cur : DiffSeg) : List DiffSeg → List DiffSeg
  | [] => [cur]
  | s :: rest =>
    if s.kind = cur.kind then mergeAux ⟨cur.kind, cur.text ++ s.text⟩ rest
    else cur :: mergeAux s rest

def mergeSegs : List DiffSeg → List DiffSeg
  | [] => []
  | s :: rest => mergeAux s rest

/-- `computeWordDiff` from `src/index.js`. -/
def computeWordDiff (original refined : String) : List DiffSeg :=
  let a := tokenize original
  let b := tokenize refined
  mergeSegs ((backtraceAux a b (tableAt a b) (a.length + b.length) a.length b.length).reverse)

/-- Concatenation (as a character list) of the texts of the segments whose
kind is `equal` or `delete`, in order. -/
def concatOriginal (l : List DiffSeg) : List Char :=
  ((l.filter fun s => s.kind ≠ SegKind.insert).map fun s => s.text.toList).flatten

/-- Concatenation of the texts of the segments whose kind is `equal` or
`insert`, in order. -/
def concatRefined (l : List DiffSeg) : List Char :=
  ((l.filter fun s => s.kind ≠ SegKind.delete).map fun s => s.text.toList).flatten

/-- Concatenation of a token sequence. -/
def tokensJoin (l : List String) : List Char := (l.map String.toList).flatten

/-- The tag name of a bracket block: the tag-character run after the
opening `[`. -/
def bracketTag (s : String) : String :=
  String.mk (s.toList.tail.takeWhile isTagChar)

end ReDraft

namespace ReDraft

/-! ## Scanner identity lemmas

A global replace leaves the text unchanged exactly when the pattern matches
at no position, i.e. the matcher fails on every suffix. -/

theorem collectScan_id (m : List Char → Option (Nat × Bool)) :
    ∀ (fuel : Nat) (l : List Char) (bs : List String),
      (∀ s ∈ l.tails, m s = none) → collectScan m fuel l bs = (l, bs) := by
  intro fuel
  induction fuel with
  | zero => intro l bs _; cases l <;> rfl
  | succ n ih =>
    intro l bs h
    cases l with
    | nil => rfl
    | cons c cs =>
      have h0 : m (c :: cs) = none := h _ (by simp [List.mem_tails])
      have h1 : ∀ s ∈ cs.tails, m s = none := by
        intro s hs
        refine h s ?_
        rw [List.mem_tails] at hs ⊢
        exact hs.trans (List.suffix_cons c cs)
      simp [collectScan, h0, ih cs bs h1]

theorem rewriteScan_id (m : List Char → Option (Nat × List Char)) :
    ∀ (fuel : Nat) (l : List Char),
      (∀ s ∈ l.tails, m s = none) → rewriteScan m fuel l = l := by
  intro fuel
  induction fuel with
  | zero => intro l _; cases l <;> rfl
  | succ n ih =>
    intro l h
    cases l with
    | nil => rfl
    | cons c cs =>
      have h0 : m (c :: cs) = none := h _ (by simp [List.mem_tails])
      have h1 : ∀ s ∈ cs.tails, m s = none := by
        intro s hs
        refine h s ?_
        rw [List.mem_tails] at hs ⊢
        exact hs.trans (List.suffix_cons c cs)
      simp [rewriteScan, h0, ih cs h1]

theorem takeWhile_append_not (p : Char → Bool) (xs : List Char) (y : Char) (ys : List Char)
    (hxs : ∀ x ∈ xs, p x = true) (hy : p y = false) :
    (xs ++ y :: ys).takeWhile p = xs := by
  induction xs with
  | nil => simp [List.takeWhile_cons, hy]
  | cons a l ih =>
    simp only [List.cons_append, List.takeWhile_cons, hxs a (by simp), if_true]
    rw [ih fun x hx => hxs x (by simp [hx])]

theorem take_length_takeWhile (p : Char → Bool) (l : List Char) :
    l.take (l.takeWhile p).length = l.takeWhile p := by
  induction l with
  | nil => rfl
  | cons a l ih =>
    by_cases h : p a <;> simp [List.takeWhile_cons, h, ih]

theorem drop_length_takeWhile (p : Char → Bool) (l : List Char) :
    l.drop (l.takeWhile p).length = l.dropWhile p := by
  induction l with
  | nil => rfl
  | cons a l ih =>
    by_cases h : p a <;> simp [List.takeWhile_cons, List.dropWhile_cons, h, ih]

theorem prefixCI_self (l : List Char) : prefixCI l l = true := by
  induction l with
  | nil => rfl
  | cons a l ih => simp [prefixCI, ih]

theorem mem_takeWhile_p (p : Char → Bool) (l : List Char) :
    ∀ x ∈ l.takeWhile p, p x = true := by
  intro x hx
  exact List.mem_takeWhile_imp hx

theorem matchBracketAt_shape (l : List Char) (len : Nat) (push : Bool)
    (h : matchBracketAt l = some (len, push)) :
    ∃ rest rest2 q,
      l = '[' :: rest ∧
      (rest.takeWhile isTagChar) ≠ [] ∧
      rest.drop (rest.takeWhile isTagChar).length = ']' :: rest2 ∧
      findCI ('[' :: '/' :: (rest.takeWhile isTagChar) ++ [']']) rest2 = some q ∧
      len = 1 + (rest.takeWhile isTagChar).length + 1 + q +
        ((rest.takeWhile isTagChar).length + 3) ∧
      push = !isReservedTag (rest.takeWhile isTagChar) := by
  unfold matchBracketAt at h
  dsimp only at h
  split at h
  case h_2 => exact absurd h (by simp)
  case h_1 c rest =>
    -- pattern '[' :: rest
    split at h
    case isTrue => exact absurd h (by simp)
    case isFalse hne =>
      split at h
      case h_2 => exact absurd h (by simp)
      case h_1 x rest2 heq =>
        -- heq : rest.drop run.length = ']' :: rest2 (x forced to ']')
        split at h
        case h_2 => exact absurd h (by simp)
        case h_1 q hq =>
          refine ⟨rest, rest2, q, rfl, by simpa using hne, heq, hq, ?_, ?_⟩ <;>
            simp only [Option.some.injEq, Prod.mk.injEq] at h
          · have h1 := h.1
            simp only [List.length_cons, List.length_append, List.length_nil] at h1
            omega
          · exact h.2.symm

end ReDraft

namespace ReDraft

/-! ## C2 — round-trip on texts without protectable markup -/

/-- Any successful pass-3 match consumes at least one character. -/
theorem matchBracketAt_pos (s : List Char) (len : Nat) (b : Bool)
    (h : matchBracketAt s = some (len, b)) : 1 ≤ len := by
  obtain ⟨rest, rest2, q, _, _, _, _, hl, _⟩ := matchBracketAt_shape s len b h
  omega

/-- A collecting pass leaves the text and the block list unchanged when no
position has a *pushing* match: a match whose callback keeps the span
verbatim (pass 3 on reserved tags) also leaves everything unchanged. -/
theorem collectScan_id_keep (m : List Char → Option (Nat × Bool))
    (hpos : ∀ s len b, m s = some (len, b) → 1 ≤ len) :
    ∀ (fuel : Nat) (l : List Char) (bs : List String),
      (∀ s ∈ l.tails, (m s).map Prod.snd ≠ some true) →
      collectScan m fuel l bs = (l, bs) := by
  intro fuel
  induction fuel with
  | zero => intro l bs _; cases l <;> rfl
  | succ n ih =>
    intro l bs h
    cases l with
    | nil => rfl
    | cons c cs =>
      cases hm : m (c :: cs) with
      | none =>
        have h1 : ∀ s ∈ cs.tails, (m s).map Prod.snd ≠ some true := by
          intro s hs
          refine h s ?_
          rw [List.mem_tails] at hs ⊢
          exact hs.trans (List.suffix_cons c cs)
        simp [collectScan, hm, ih cs bs h1]
      | some p =>
        obtain ⟨len, b⟩ := p
        have hb : b = false := by
          have hself := h (c :: cs) (by simp [List.mem_tails])
          rw [hm] at hself
          simpa using hself
        subst hb
        obtain ⟨len', rfl⟩ : ∃ n0, len = n0 + 1 :=
          ⟨len - 1, by have := hpos _ _ _ hm; omega⟩
        have hrest : ∀ s ∈ ((c :: cs).drop (len' + 1)).tails,
            (m s).map Prod.snd ≠ some true := by
          intro s hs
          refine h s ?_
          rw [List.mem_tails] at hs ⊢
          exact hs.trans (List.drop_suffix _ _)
        simp only [collectScan, hm, Bool.false_eq_true, if_false, Nat.add_sub_cancel]
        rw [show (cs.drop len' : List Char) = (c :: cs).drop (len' + 1) from rfl,
          ih _ bs hrest]
        simp [List.take_append_drop]

/-- C2, counterexample.  The text `"[PROTECTED_0]x"` contains no code
fence, no protected tag element and no closed bracket block subject to
stripping (pass 3 requires a letters/underscore tag, and `PROTECTED_0`
contains a digit), so `strip` returns it unchanged with no blocks; but
`restore` deletes the placeholder-shaped token (`blocks[0]` is undefined),
so the round trip does not return the text. -/
theorem strip_restore_roundtrip_ce :
    stripProtectedBlocks "[PROTECTED_0]x" = ("[PROTECTED_0]x", []) ∧
    restoreProtectedBlocks "[PROTECTED_0]x" [] = "x" ∧
    ("x" : String) ≠ "[PROTECTED_0]x" :=
  ⟨rfl, rfl, by decide⟩

/-- C2, amended: for every text in which pass 1 and pass 2 of
`stripProtectedBlocks` find no match at any position, pass 3 finds no
*stripping* match at any position (a closed reserved-tag bracket block,
which pass 3 matches but leaves in place, is allowed), **and which
contains no placeholder-shaped token** `[PROTECTED_<digits>]`, stripping
returns the text unchanged with an empty block list and restoring the
stripped text with that block list returns the text exactly. -/
theorem strip_restore_roundtrip (t : String)
    (h1 : ∀ s ∈ t.toList.tails, matchFenceAt s = none)
    (h2 : ∀ s ∈ t.toList.tails, matchBlockTagAt s = none)
    (h3 : ∀ s ∈ t.toList.tails, (matchBracketAt s).map Prod.snd ≠ some true)
    (h4 : ∀ s ∈ t.toList.tails, matchPlaceholderAt s = none) :
    stripProtectedBlocks t = (t, []) ∧ restoreProtectedBlocks t [] = t := by
  constructor
  · show (let l0 := t.toList;
      let r1 := collectScan matchFenceAt l0.length l0 [];
      let r2 := collectScan matchBlockTagAt r1.1.length r1.1 r1.2;
      let r3 := collectScan matchBracketAt r2.1.length r2.1 r2.2;
      (String.mk r3.1, r3.2)) = (t, [])
    simp only [collectScan_id _ _ _ _ h1, collectScan_id _ _ _ _ h2,
      collectScan_id_keep _ matchBracketAt_pos _ _ _ h3]
    rfl
  · unfold restoreProtectedBlocks replaceProtScan
    have h4' : ∀ s ∈ t.toList.tails, placeholderRep [] s = none := by
      intro s hs; simp [placeholderRep, h4 s hs]
    rw [rewriteScan_id _ _ _ h4']
    simp [restoreAppendTail]

theorem strip_restore_roundtrip_witness :
    (stripProtectedBlocks "Hello world." = ("Hello world.", []) ∧
      restoreProtectedBlocks "Hello world." [] = "Hello world.") ∧
    (stripProtectedBlocks "[CHANGELOG]x[/CHANGELOG]" =
        ("[CHANGELOG]x[/CHANGELOG]", []) ∧
      restoreProtectedBlocks "[CHANGELOG]x[/CHANGELOG]" [] =
        "[CHANGELOG]x[/CHANGELOG]") :=
  ⟨strip_restore_roundtrip "Hello world."
      (by decide) (by decide) (by decide) (by decide),
   strip_restore_roundtrip "[CHANGELOG]x[/CHANGELOG]"
      (by decide) (by decide) (by decide) (by decide)⟩

/-! ## C5 — the parser's fallback and the (non-)emptiness of `refined` -/

/-- C5, counterexample: on the empty raw reply (where the fallback branch
fires) `refined` is the empty string, so `refined` is not always
non-empty. -/
theorem parse_refined_nonempty_ce : (parseChangelog "").refined = "" := rfl

/-- C5, amended: when no structured content can be recovered (all three
extraction strategies fail), `changelog` is `null` and `refined` is the
raw reply trimmed — then passed through the final tag-marker cleanup and
re-trimmed; in particular `refined` may be empty. -/
theorem parse_fallback (raw : String) (h : parseRaw raw.toList = (none, none)) :
    parseChangelog raw =
      ⟨none, String.mk (trimL (cleanupTags (trimL raw.toList)))⟩ := by
  unfold parseChangelog
  simp only [h]
  rfl

theorem parse_fallback_witness : parseChangelog "hello" = ⟨none, "hello"⟩ :=
  (parse_fallback "hello" rfl).trans (by decide)

end ReDraft

namespace ReDraft

/-! ## C6 — extraction from a closed `[REFINED]` pair -/

/-- C6, counterexample: when the refined pair's inner content itself
contains tag markers, the final cleanup removes them, so `refined` is not
the pair's inner content trimmed. -/
theorem parse_refined_pair_ce :
    refinedInner "[REFINED][CHANGELOG]x[/CHANGELOG][/REFINED]".toList =
      some "[CHANGELOG]x[/CHANGELOG]".toList ∧
    parseChangelog "[REFINED][CHANGELOG]x[/CHANGELOG][/REFINED]" = ⟨some "x", "x"⟩ ∧
    ("x" : String) ≠ String.mk (trimL "[CHANGELOG]x[/CHANGELOG]".toList) :=
  ⟨rfl, rfl, by decide⟩

/-- C6, amended: when the reply has a closed (case-insensitive)
`[REFINED]...[/REFINED]` pair whose inner content does not trim to
nothing, `refined` is that inner content trimmed — then passed through the
final tag-marker cleanup and re-trimmed — `changelog` is the closed
changelog pair's inner content trimmed when one is present (null
otherwise), and all other surrounding text is discarded; the spec's
concrete example parses to `changelog = "- x"`, `refined = "Hello
world."`. -/
theorem parse_refined_pair :
    (∀ (raw : String) (inner : List Char), refinedInner raw.toList = some inner →
      trimL inner ≠ [] →
      parseChangelog raw =
        ⟨(changelogClosed raw.toList).map fun p => String.mk (trimL p.1),
         String.mk (trimL (cleanupTags (trimL inner)))⟩) ∧
    parseChangelog "blah blah [CHANGELOG]\n- x\n[/CHANGELOG][REFINED]Hello world.[/REFINED]" =
      ⟨some "- x", "Hello world."⟩ := by
  constructor
  · intro raw inner h h2
    unfold parseChangelog parseRaw
    simp only [h]
    have he : (trimL inner).isEmpty = false := by
      cases he : trimL inner with
      | nil => exact absurd he h2
      | cons a l => rfl
    simp only [he, Bool.false_eq_true, if_false, Option.map_map]
    rfl
  · rfl

theorem parse_refined_pair_witness :
    parseChangelog "blah blah [CHANGELOG]\n- x\n[/CHANGELOG][REFINED]Hello world.[/REFINED]" =
      ⟨(changelogClosed "blah blah [CHANGELOG]\n- x\n[/CHANGELOG][REFINED]Hello world.[/REFINED]".toList).map
         (fun p => String.mk (trimL p.1)),
       String.mk (trimL (cleanupTags (trimL "Hello world.".toList)))⟩ :=
  parse_refined_pair.1 _ _ rfl (by decide)

end ReDraft

namespace ReDraft

theorem pushed_block_not_reserved (l : List Char) (len : Nat)
    (h : matchBracketAt l = some (len, true)) :
    isReservedTag (bracketTag (String.mk (l.take len))).toList = false := by
  obtain ⟨rest, rest2, q, hl, hne, hdrop, hfind, hlen, hpush⟩ :=
    matchBracketAt_shape l len true h
  set run := rest.takeWhile isTagChar with hrun
  have hres : isReservedTag run = false := by
    cases hr : isReservedTag run
    · rfl
    · rw [hr] at hpush; simp at hpush
  have hsplit : rest = run ++ ']' :: rest2 := by
    calc rest = rest.take run.length ++ rest.drop run.length :=
          (List.take_append_drop _ _).symm
    _ = run ++ ']' :: rest2 := by
        rw [hrun, take_length_takeWhile, hdrop]
  subst hl
  show isReservedTag ((('[' :: rest).take len).tail.takeWhile isTagChar) = false
  obtain ⟨n, hn⟩ : ∃ n, len = n + 1 := ⟨len - 1, by omega⟩
  subst hn
  rw [List.take_succ_cons, List.tail_cons, hsplit,
    List.take_append_eq_append_take, List.take_of_length_le (by omega)]
  have hn1 : ∃ m, n - run.length = m + 1 := ⟨n - run.length - 1, by omega⟩
  obtain ⟨m, hm⟩ := hn1
  rw [hm, List.take_succ_cons,
    takeWhile_append_not isTagChar run ']' _ (mem_takeWhile_p _ _) (by decide)]
  exact hres

theorem bracket_pass_blocks (fuel : Nat) :
    ∀ (l : List Char) (bs : List String) (s : String),
      s ∈ (collectScan matchBracketAt fuel l bs).2 →
      s ∈ bs ∨ isReservedTag (bracketTag s).toList = false := by
  induction fuel with
  | zero =>
    intro l bs s h
    cases l with
    | nil => exact Or.inl h
    | cons c cs => exact Or.inl h
  | succ n ih =>
    intro l bs s h
    cases l with
    | nil => exact Or.inl h
    | cons c cs =>
      rcases hm : matchBracketAt (c :: cs) with _ | ⟨len, push⟩
      · simp only [collectScan, hm] at h
        exact ih cs bs s h
      · cases push
        · simp only [collectScan, hm, Bool.false_eq_true, if_false] at h
          exact ih _ _ _ h
        · simp only [collectScan, hm, if_true] at h
          rcases ih _ _ _ h with hmem | hres
          · rcases List.mem_append.1 hmem with h1 | h2
            · exact Or.inl h1
            · simp only [List.mem_singleton] at h2
              subst h2
              exact Or.inr (pushed_block_not_reserved _ _ hm)
          · exact Or.inr hres

end ReDraft

namespace ReDraft

theorem findCI_cons_of_not (pat : List Char) (c : Char) (cs : List Char)
    (h : prefixCI pat (c :: cs) = false) :
    findCI pat (c :: cs) = (findCI pat cs).map (· + 1) := by
  simp [findCI, h]

theorem findCI_cons_of_prefix (pat : List Char) (c : Char) (cs : List Char)
    (h : prefixCI pat (c :: cs) = true) : findCI pat (c :: cs) = some 0 := by
  simp [findCI, h]

theorem matchBracketAt_cons (rest : List Char) :
    matchBracketAt ('[' :: rest) =
      (let r := rest.takeWhile isTagChar
       if r.isEmpty then none
       else
        match rest.drop r.length with
        | ']' :: rest2 =>
          match findCI ('[' :: '/' :: r ++ [']']) rest2 with
          | some q =>
            some (1 + r.length + 1 + q + ('[' :: '/' :: r ++ [']']).length,
              !isReservedTag r)
          | none => none
        | _ => none) := rfl

theorem bracket_matches_nonreserved_tag (run : List Char) (hne : run ≠ [])
    (htag : ∀ c ∈ run, isTagChar c = true) (hres : isReservedTag run = false) :
    matchBracketAt ('[' :: (run ++ (']' :: 'x' :: ('[' :: '/' :: run ++ [']'])))) =
      some (2 * run.length + 6, true) := by
  rw [matchBracketAt_cons]
  dsimp only
  have htw : (run ++ (']' :: 'x' :: ('[' :: '/' :: run ++ [']']))).takeWhile isTagChar
      = run :=
    takeWhile_append_not isTagChar run ']' ('x' :: ('[' :: '/' :: run ++ [']']))
      htag (by decide)
  rw [htw]
  have hie : run.isEmpty = false := by
    cases run with
    | nil => exact absurd rfl hne
    | cons a l => rfl
  rw [hie]
  simp only [Bool.false_eq_true, if_false]
  rw [List.drop_left run]
  split
  case h_2 hno => exact absurd rfl (hno ('x' :: ('[' :: '/' :: run ++ [']'])))
  case h_1 rest2 heq =>
    have hr2 : rest2 = 'x' :: ('[' :: '/' :: run ++ [']']) := by
      injection heq with _ h2
      exact h2.symm
    subst hr2
    have hpf : prefixCI ('[' :: '/' :: run ++ [']'])
        ('x' :: ('[' :: '/' :: run ++ [']'])) = false := by
      simp +decide [prefixCI, asciiLower]
    rw [findCI_cons_of_not _ _ _ hpf]
    have h0 : findCI ('[' :: '/' :: run ++ [']']) ('[' :: '/' :: run ++ [']']) = some 0 := by
      rw [List.cons_append, List.cons_append]
      exact findCI_cons_of_prefix _ _ _ (by
        rw [← List.cons_append, ← List.cons_append]
        exact prefixCI_self _)
    rw [h0]
    show some (1 + run.length + 1 + (0 + 1) + ('[' :: '/' :: run ++ [']']).length,
        !isReservedTag run) = some (2 * run.length + 6, true)
    simp only [hres, Bool.not_false, Option.some.injEq, Prod.mk.injEq]
    constructor
    · simp only [List.length_cons, List.length_append, List.length_nil]
      omega
    · trivial

end ReDraft

namespace ReDraft

/-! ## C3 — reserved tags in the third pass -/

/-- C3, counterexample: a `[REFINED]...[/REFINED]` block **is** stripped by
the third pass (the code only exempts `CHANGELOG` and `PROTECTED*`), so the
claim that the two ResponseParser tag names are both left in place is
false. -/
theorem reserved_tags_kept_ce :
    stripProtectedBlocks "[REFINED]x[/REFINED]" =
      ("[PROTECTED_0]", ["[REFINED]x[/REFINED]"]) ∧
    (["[REFINED]x[/REFINED]"] : List String) ≠ [] :=
  ⟨rfl, by decide⟩

/-- C3, amended: the third pass never strips a block whose tag name
upper-cases to `CHANGELOG` or starts (upper-cased) with `PROTECTED` —
every block it appends has a non-reserved tag, and reserved-tagged spans
are left in place — but the `REFINED` tag enjoys no such exemption and is
stripped. -/
theorem reserved_tags_kept :
    (∀ (fuel : Nat) (l : List Char) (bs : List String) (s : String),
        s ∈ (collectScan matchBracketAt fuel l bs).2 →
        s ∈ bs ∨ isReservedTag (bracketTag s).toList = false) ∧
    stripProtectedBlocks "[CHANGELOG]x[/CHANGELOG]" =
      ("[CHANGELOG]x[/CHANGELOG]", []) ∧
    stripProtectedBlocks "[PROTECTED_A]y[/PROTECTED_A]" =
      ("[PROTECTED_A]y[/PROTECTED_A]", []) ∧
    stripProtectedBlocks "[REFINED]x[/REFINED]" =
      ("[PROTECTED_0]", ["[REFINED]x[/REFINED]"]) :=
  ⟨bracket_pass_blocks, rfl, rfl, rfl⟩

theorem reserved_tags_kept_witness :
    ("[REFINED]x[/REFINED]" : String) ∈ ([] : List String) ∨
      isReservedTag (bracketTag "[REFINED]x[/REFINED]").toList = false :=
  reserved_tags_kept.1 20 "[REFINED]x[/REFINED]".toList [] _ (by decide)

/-! ## C9 — case-sensitivity of the third pass -/

/-- C9, counterexample: the pass-3 regexp carries the `i` flag, so the
lower-case-tagged block `[tag]x[/tag]` is stripped and recorded, not left
in place. -/
theorem lowercase_tags_kept_ce :
    stripProtectedBlocks "[tag]x[/tag]" = ("[PROTECTED_0]", ["[tag]x[/tag]"]) ∧
    (["[tag]x[/tag]"] : List String) ≠ [] :=
  ⟨rfl, by decide⟩

/-- C9, amended: the third pass matches tag names made of letters of
either case (and underscores): every closed bracket block with a
non-reserved tag of tag-characters matches at its opening bracket, and in
particular the lower-case `[tag]x[/tag]` is stripped and added to the
block list. -/
theorem lowercase_tags_stripped :
    (∀ run : List Char, run ≠ [] → (∀ c ∈ run, isTagChar c = true) →
        isReservedTag run = false →
        matchBracketAt ('[' :: (run ++ (']' :: 'x' :: ('[' :: '/' :: run ++ [']'])))) =
          some (2 * run.length + 6, true)) ∧
    stripProtectedBlocks "[tag]x[/tag]" = ("[PROTECTED_0]", ["[tag]x[/tag]"]) :=
  ⟨bracket_matches_nonreserved_tag, rfl⟩

theorem lowercase_tags_stripped_witness :
    matchBracketAt ('[' :: ("tag".toList ++ (']' :: 'x' :: ('[' :: '/' :: "tag".toList ++ [']'])))) =
      some (2 * "tag".toList.length + 6, true) :=
  lowercase_tags_stripped.1 "tag".toList (by decide) (by decide) (by decide)

end ReDraft

namespace ReDraft

/-! ## C8 — the PovDetector thresholds -/

/-- C8: when at least 3 pronouns are matched and the first- and
second-person counts each strictly exceed 20% of the combined total
(`n > total * 0.2` over doubles coincides with `5 * n > total` for all
feasible counts, see `detectPov`), the classification is `'1.5'` — this
branch precedes the single-class plurality rules — and when the combined
total is below 3 the result is undetermined (`null`). -/
theorem pov_rules (text : String) :
    (3 ≤ firstCount text + secondCount text + thirdCount text →
      5 * firstCount text > firstCount text + secondCount text + thirdCount text →
      5 * secondCount text > firstCount text + secondCount text + thirdCount text →
      detectPov text = some "1.5") ∧
    (firstCount text + secondCount text + thirdCount text < 3 →
      detectPov text = none) := by
  constructor
  · intro h3 hf hs
    unfold detectPov
    have h1 : ¬ (firstCount text + secondCount text + thirdCount text < 3) := by omega
    simp only [h1, if_false, hf, hs, and_self, if_true]
  · intro h3
    unfold detectPov
    simp only [h3, if_true]

theorem pov_rules_witness :
    detectPov "i you i" = some "1.5" ∧ detectPov "The cat sat." = none :=
  ⟨(pov_rules "i you i").1 (by decide) (by decide) (by decide),
   (pov_rules "The cat sat.").2 (by decide)⟩

end ReDraft

namespace ReDraft

/-! ## C7 — the backtrace tie-break -/

/-- C7: at a backtrace step with both indices positive, differing current
tokens, and `tableAt(i, j-1) >= tableAt(i-1, j)` in the (16-bit truncated)
LCS table actually used by `computeWordDiff`, an insert segment is emitted
and the refined-side index is decremented — insertion is the tie-break
whenever deletion and insertion are equally supported. -/
theorem diff_tie_break (a b : List String) (fuel i j : Nat)
    (hne : a.getD i "" ≠ b.getD j "")
    (hdp : tableAt a b (i + 1) j ≥ tableAt a b i (j + 1)) :
    backtraceAux a b (tableAt a b) (fuel + 1) (i + 1) (j + 1) =
      ⟨.insert, b.getD j ""⟩ :: backtraceAux a b (tableAt a b) fuel (i + 1) j := by
  have hne' : a[i]?.getD "" ≠ b[j]?.getD "" := by
    rwa [← List.getD_eq_getElem?_getD, ← List.getD_eq_getElem?_getD]
  simp [backtraceAux, hne', hdp]

theorem diff_tie_break_witness :
    backtraceAux ["x"] ["y"] (tableAt ["x"] ["y"]) 2 1 1 =
      ⟨.insert, (["y"] : List String).getD 0 ""⟩ ::
        backtraceAux ["x"] ["y"] (tableAt ["x"] ["y"]) 1 1 0 :=
  diff_tie_break ["x"] ["y"] 1 0 0 (by decide) (by decide)

/-! ## C1 — the diff concatenation invariant -/

def segOriginal (s : DiffSeg) : List Char :=
  if s.kind = SegKind.insert then [] else s.text.toList

def segRefined (s : DiffSeg) : List Char :=
  if s.kind = SegKind.delete then [] else s.text.toList

theorem concatOriginal_eq (l : List DiffSeg) :
    concatOriginal l = (l.map segOriginal).flatten := by
  induction l with
  | nil => rfl
  | cons s rest ih =>
    by_cases h : s.kind = SegKind.insert <;>
      simp [concatOriginal, segOriginal, List.filter_cons, h] <;>
      simpa [concatOriginal] using ih

theorem concatRefined_eq (l : List DiffSeg) :
    concatRefined l = (l.map segRefined).flatten := by
  induction l with
  | nil => rfl
  | cons s rest ih =>
    by_cases h : s.kind = SegKind.delete <;>
      simp [concatRefined, segRefined, List.filter_cons, h] <;>
      simpa [concatRefined] using ih

theorem segOriginal_merge (cur s : DiffSeg) (h : s.kind = cur.kind) :
    segOriginal ⟨cur.kind, cur.text ++ s.text⟩ = segOriginal cur ++ segOriginal s := by
  by_cases hk : cur.kind = SegKind.insert <;>
    simp [segOriginal, hk, h, String.toList, String.data_append]

theorem segRefined_merge (cur s : DiffSeg) (h : s.kind = cur.kind) :
    segRefined ⟨cur.kind, cur.text ++ s.text⟩ = segRefined cur ++ segRefined s := by
  by_cases hk : cur.kind = SegKind.delete <;>
    simp [segRefined, hk, h, String.toList, String.data_append]

theorem mergeAux_concat (f : DiffSeg → List Char)
    (hf : ∀ cur s, s.kind = cur.kind →
      f ⟨cur.kind, cur.text ++ s.text⟩ = f cur ++ f s) :
    ∀ (l : List DiffSeg) (cur : DiffSeg),
      ((mergeAux cur l).map f).flatten = f cur ++ (l.map f).flatten := by
  intro l
  induction l with
  | nil => intro cur; simp [mergeAux]
  | cons s rest ih =>
    intro cur
    unfold mergeAux
    by_cases hk : s.kind = cur.kind
    · rw [if_pos hk, ih, hf cur s hk]
      simp
    · rw [if_neg hk]
      simp [ih s]

theorem mergeSegs_concat (f : DiffSeg → List Char)
    (hf : ∀ cur s, s.kind = cur.kind →
      f ⟨cur.kind, cur.text ++ s.text⟩ = f cur ++ f s) (l : List DiffSeg) :
    ((mergeSegs l).map f).flatten = (l.map f).flatten := by
  cases l with
  | nil => rfl
  | cons s rest => simpa using mergeAux_concat f hf rest s

theorem tokensJoin_take_succ (l : List String) (i : Nat) (h : i < l.length) :
    tokensJoin (l.take (i + 1)) = tokensJoin (l.take i) ++ (l.getD i "").toList := by
  have hg : l[i]? = some l[i] := List.getElem?_eq_getElem h
  unfold tokensJoin
  rw [List.take_succ, hg, List.map_append, List.flatten_append]
  simp [List.getD, hg, Option.toList]

theorem backtrace_concat (a b : List String) (dp : Nat → Nat → Nat) :
    ∀ (fuel i j : Nat), i + j ≤ fuel → i ≤ a.length → j ≤ b.length →
      (((backtraceAux a b dp fuel i j).reverse.map segOriginal).flatten =
        tokensJoin (a.take i)) ∧
      (((backtraceAux a b dp fuel i j).reverse.map segRefined).flatten =
        tokensJoin (b.take j)) := by
  intro fuel
  induction fuel with
  | zero =>
    intro i j hij hi hj
    have : i = 0 ∧ j = 0 := by omega
    obtain ⟨rfl, rfl⟩ := this
    simp [backtraceAux, tokensJoin]
  | succ n ih =>
    intro i j hij hi hj
    match i, j with
    | 0, 0 => simp [backtraceAux, tokensJoin]
    | 0, j' + 1 =>
      have h1 := ih 0 j' (by omega) (by omega) (by omega)
      simp only [backtraceAux, List.reverse_cons, List.map_append,
        List.flatten_append]
      rw [h1.1, h1.2]
      constructor
      · simp [segOriginal, tokensJoin]
      · rw [tokensJoin_take_succ b j' (by omega)]
        simp [segRefined]
    | i' + 1, 0 =>
      have h1 := ih i' 0 (by omega) (by omega) (by omega)
      simp only [backtraceAux, List.reverse_cons, List.map_append,
        List.flatten_append]
      rw [h1.1, h1.2]
      constructor
      · rw [tokensJoin_take_succ a i' (by omega)]
        simp [segOriginal]
      · simp [segRefined, tokensJoin]
    | i' + 1, j' + 1 =>
      by_cases heq : a.getD i' "" = b.getD j' ""
      · have heq' : a[i']?.getD "" = b[j']?.getD "" := by
          rwa [← List.getD_eq_getElem?_getD, ← List.getD_eq_getElem?_getD]
        have h1 := ih i' j' (by omega) (by omega) (by omega)
        simp only [backtraceAux, heq, if_true, List.reverse_cons,
          List.map_append, List.flatten_append]
        rw [h1.1, h1.2]
        constructor
        · rw [tokensJoin_take_succ a i' (by omega)]
          simp [segOriginal, heq']
        · rw [tokensJoin_take_succ b j' (by omega)]
          simp [segRefined, heq']
      · by_cases hdp : dp (i' + 1) j' ≥ dp i' (j' + 1)
        · have h1 := ih (i' + 1) j' (by omega) (by omega) (by omega)
          simp only [backtraceAux, heq, if_false, hdp, if_true,
            List.reverse_cons, List.map_append, List.flatten_append]
          rw [h1.1, h1.2]
          constructor
          · simp [segOriginal]
          · rw [tokensJoin_take_succ b j' (by omega)]
            simp [segRefined]
        · have h1 := ih i' (j' + 1) (by omega) (by omega) (by omega)
          simp only [backtraceAux, heq, if_false, hdp, List.reverse_cons,
            List.map_append, List.flatten_append]
          rw [h1.1, h1.2]
          constructor
          · rw [tokensJoin_take_succ a i' (by omega)]
            simp [segOriginal]
          · simp [segRefined]

/-- C1: the merged segment list of `computeWordDiff` satisfies the
invariant — the `equal`+`delete` segment texts concatenate to the
concatenation of `tokenize(original)` and the `equal`+`insert` segment
texts concatenate to the concatenation of `tokenize(refined)`. -/
theorem diff_concat_invariant (original refined : String) :
    concatOriginal (computeWordDiff original refined) =
      tokensJoin (tokenize original) ∧
    concatRefined (computeWordDiff original refined) =
      tokensJoin (tokenize refined) := by
  unfold computeWordDiff
  rw [concatOriginal_eq, concatRefined_eq,
    mergeSegs_concat segOriginal segOriginal_merge,
    mergeSegs_concat segRefined segRefined_merge]
  have h := backtrace_concat (tokenize original) (tokenize refined)
    (tableAt (tokenize original) (tokenize refined))
    ((tokenize original).length + (tokenize refined).length)
    (tokenize original).length (tokenize refined).length
    (le_refl _) (le_refl _) (le_refl _)
  rw [List.take_length, List.take_length] at h
  exact h

end ReDraft

namespace ReDraft

/-! ## Decimal numeral and placeholder-matcher lemmas -/

theorem natDecimalAux_digits (fuel : Nat) :
    ∀ n, ∀ c ∈ natDecimalAux fuel n, c.isDigit = true := by
  induction fuel with
  | zero => intro n c hc; simp [natDecimalAux] at hc
  | succ f ih =>
    intro n c hc
    unfold natDecimalAux at hc
    by_cases h : n < 10
    · rw [if_pos h] at hc
      simp only [List.mem_singleton] at hc
      subst hc
      interval_cases n <;> decide
    · rw [if_neg h] at hc
      rcases List.mem_append.1 hc with h1 | h2
      · exact ih _ c h1
      · simp only [List.mem_singleton] at h2
        subst h2
        have : n % 10 < 10 := Nat.mod_lt _ (by omega)
        set d := n % 10
        interval_cases d <;> decide

theorem natDecimal_digits (n : Nat) : ∀ c ∈ natDecimal n, c.isDigit = true :=
  natDecimalAux_digits (n + 1) n

theorem natDecimal_ne_nil (n : Nat) : natDecimal n ≠ [] := by
  unfold natDecimal natDecimalAux
  by_cases h : n < 10 <;> simp [h]

theorem charVal_digit (d : Nat) (h : d < 10) : charVal (Char.ofNat (48 + d)) = d := by
  interval_cases d <;> decide

theorem parseDec_append_digit (xs : List Char) (c : Char) :
    parseDec (xs ++ [c]) = 10 * parseDec xs + charVal c := by
  simp [parseDec, List.foldl_append]

theorem parseDec_natDecimalAux (fuel : Nat) :
    ∀ n, n < fuel → parseDec (natDecimalAux fuel n) = n := by
  induction fuel with
  | zero => intro n h; omega
  | succ f ih =>
    intro n h
    unfold natDecimalAux
    by_cases h10 : n < 10
    · rw [if_pos h10]
      have : parseDec [Char.ofNat (48 + n)] = charVal (Char.ofNat (48 + n)) := by
        simp [parseDec]
      rw [this, charVal_digit n h10]
    · rw [if_neg h10]
      rw [parseDec_append_digit, ih (n / 10) (by omega),
        charVal_digit (n % 10) (Nat.mod_lt _ (by omega))]
      omega

theorem parseDec_natDecimal (n : Nat) : parseDec (natDecimal n) = n :=
  parseDec_natDecimalAux (n + 1) n (by omega)

theorem placeholderList_length (i : Nat) :
    (placeholderList i).length = 11 + (natDecimal i).length + 1 := by
  simp [placeholderList]
  omega

/-- The placeholder matcher accepts the canonical token: at the start of
`placeholderList i ++ t` it reads index `i` with the token's length. -/
theorem matchPlaceholderAt_canonical (i : Nat) (t : List Char) :
    matchPlaceholderAt (placeholderList i ++ t) =
      some (i, 11 + (natDecimal i).length + 1) := by
  have hassoc : placeholderList i ++ t =
      "[PROTECTED_".toList ++ (natDecimal i ++ (']' :: t)) := by
    simp [placeholderList]
  rw [hassoc]
  unfold matchPlaceholderAt
  rw [if_pos (List.isPrefixOf_iff_prefix.2 (List.prefix_append _ _))]
  rw [List.drop_left' (by decide)]
  dsimp only
  have htw : (natDecimal i ++ (']' :: t)).takeWhile Char.isDigit = natDecimal i :=
    takeWhile_append_not _ _ _ _ (natDecimal_digits i) (by decide)
  rw [htw]
  have hne : (natDecimal i).isEmpty = false := by
    cases hd : natDecimal i with
    | nil => exact absurd hd (natDecimal_ne_nil i)
    | cons a l => rfl
  rw [hne]
  simp only [Bool.false_eq_true, if_false]
  rw [List.drop_left]
  simp [parseDec_natDecimal]

/-- The placeholder matcher accepts any token-shaped prefix
`[PROTECTED_` + digits + `]`, reporting its value and length. -/
theorem matchPlaceholderAt_token (ds rest : List Char)
    (hds : ∀ c ∈ ds, c.isDigit = true) (hne : ds ≠ []) :
    matchPlaceholderAt (("[PROTECTED_".toList ++ ds ++ [']']) ++ rest) =
      some (parseDec ds, 11 + ds.length + 1) := by
  have hassoc : ("[PROTECTED_".toList ++ ds ++ [']']) ++ rest =
      "[PROTECTED_".toList ++ (ds ++ (']' :: rest)) := by
    simp
  rw [hassoc]
  unfold matchPlaceholderAt
  rw [if_pos (List.isPrefixOf_iff_prefix.2 (List.prefix_append _ _))]
  rw [List.drop_left' (by decide)]
  dsimp only
  have htw : (ds ++ (']' :: rest)).takeWhile Char.isDigit = ds :=
    takeWhile_append_not _ _ _ _ hds (by decide)
  rw [htw]
  have hie : ds.isEmpty = false := by
    cases hd : ds with
    | nil => exact absurd hd hne
    | cons a l => rfl
  rw [hie]
  simp only [Bool.false_eq_true, if_false]
  rw [List.drop_left]
  rfl

/-- Shape of any successful placeholder match: the matched prefix is
`[PROTECTED_` + a non-empty digit run + `]`, the reported index is its
value, and the reported length is the token length. -/
theorem matchPlaceholderAt_shape (l : List Char) (k len : Nat)
    (h : matchPlaceholderAt l = some (k, len)) :
    ∃ ds rest3, (∀ c ∈ ds, c.isDigit = true) ∧ ds ≠ [] ∧ k = parseDec ds ∧
      len = 11 + ds.length + 1 ∧
      l = ("[PROTECTED_".toList ++ ds ++ [']']) ++ rest3 := by
  unfold matchPlaceholderAt at h
  split at h
  case isFalse => exact absurd h (by simp)
  case isTrue hpre =>
    dsimp only at h
    split at h
    case isTrue => exact absurd h (by simp)
    case isFalse hne =>
      split at h
      case h_2 => exact absurd h (by simp)
      case h_1 x rest3 hdrop =>
        simp only [Option.some.injEq, Prod.mk.injEq] at h
        obtain ⟨hk, hlen⟩ := h
        refine ⟨(l.drop 11).takeWhile Char.isDigit, rest3,
          mem_takeWhile_p _ _, by simpa using hne, hk.symm, hlen.symm, ?_⟩
        obtain ⟨u, hu⟩ := List.isPrefixOf_iff_prefix.1 hpre
        have hu11 : l.drop 11 = u := by
          rw [← hu, List.drop_left' (by decide)]
        have hsplit : l.drop 11 =
            ((l.drop 11).takeWhile Char.isDigit) ++ (']' :: rest3) := by
          conv_lhs => rw [← List.take_append_drop
            ((l.drop 11).takeWhile Char.isDigit).length (l.drop 11)]
          rw [take_length_takeWhile, hdrop]
        calc l = "[PROTECTED_".toList ++ l.drop 11 := by rw [hu11, hu]
        _ = "[PROTECTED_".toList ++
            (((l.drop 11).takeWhile Char.isDigit) ++ (']' :: rest3)) := by
            rw [← hsplit]
        _ = ("[PROTECTED_".toList ++ (l.drop 11).takeWhile Char.isDigit ++ [']'])
              ++ rest3 := by simp

end ReDraft

namespace ReDraft

/-- No character after the opening bracket of a placeholder token is `[`. -/
theorem token_interior_no_bracket (ds : List Char)
    (hds : ∀ c ∈ ds, c.isDigit = true) :
    ∀ c ∈ ("PROTECTED_".toList ++ ds ++ [']']), c ≠ '[' := by
  intro c hc he
  subst he
  rcases List.mem_append.1 hc with h1 | h2
  · rcases List.mem_append.1 h1 with h3 | h4
    · exact absurd h3 (by decide)
    · exact absurd (hds _ h4) (by decide)
  · exact absurd h2 (by decide)

/-- Two digit runs followed by `]` in the same string are equal. -/
theorem digits_rbracket_unique :
    ∀ (ds es u v : List Char), (∀ c ∈ ds, c.isDigit = true) →
      (∀ c ∈ es, c.isDigit = true) →
      ds ++ ']' :: u = es ++ ']' :: v → ds = es := by
  intro ds
  induction ds with
  | nil =>
    intro es u v _ hes h
    cases es with
    | nil => rfl
    | cons e es' =>
      simp only [List.nil_append, List.cons_append, List.cons.injEq] at h
      exact absurd (hes e (by simp)) (by rw [← h.1]; decide)
  | cons d ds' ih =>
    intro es u v hds hes h
    cases es with
    | nil =>
      simp only [List.cons_append, List.nil_append, List.cons.injEq] at h
      exact absurd (hds d (by simp)) (by rw [h.1]; decide)
    | cons e es' =>
      simp only [List.cons_append, List.cons.injEq] at h
      rw [h.1, ih es' u v (fun c hc => hds c (by simp [hc]))
        (fun c hc => hes c (by simp [hc])) h.2]

/-- `rewriteScan` does not depend on the fuel as long as it is at least
the input length (each step consumes at least one character). -/
theorem rewriteScan_fuel (m : List Char → Option (Nat × List Char)) :
    ∀ (fuel fuel' : Nat) (l : List Char), l.length ≤ fuel → l.length ≤ fuel' →
      rewriteScan m fuel l = rewriteScan m fuel' l := by
  intro fuel
  induction fuel with
  | zero =>
    intro fuel' l h h'
    have hl : l = [] := by
      cases l with
      | nil => rfl
      | cons a l' => simp at h
    subst hl
    cases fuel' <;> rfl
  | succ f ih =>
    intro fuel' l h h'
    cases l with
    | nil => cases fuel' <;> rfl
    | cons c cs =>
      cases fuel' with
      | zero => simp at h'
      | succ f' =>
        simp only [rewriteScan]
        cases hm : m (c :: cs) with
        | none =>
          dsimp only
          rw [ih f' cs (by simp at h; omega) (by simp at h'; omega)]
        | some p =>
          obtain ⟨len, rep⟩ := p
          dsimp only
          rw [ih f' (cs.drop (len - 1))
            (by rw [List.length_drop]; simp at h; omega)
            (by rw [List.length_drop]; simp at h'; omega)]

end ReDraft

namespace ReDraft

theorem placeholderList_cons (i : Nat) :
    placeholderList i = '[' :: ("PROTECTED_".toList ++ natDecimal i ++ [']']) := by
  unfold placeholderList
  rw [show ("[PROTECTED_".toList : List Char) = '[' :: "PROTECTED_".toList from by decide]
  simp

theorem rewriteScan_step (m : List Char → Option (Nat × List Char)) (fuel len : Nat)
    (l rep : List Char) (hl : l ≠ []) (hm : m l = some (len, rep)) (h1 : 1 ≤ len) :
    rewriteScan m (fuel + 1) l = rep ++ rewriteScan m fuel (l.drop len) := by
  cases l with
  | nil => exact absurd rfl hl
  | cons c cs =>
    simp only [rewriteScan, hm]
    obtain ⟨len', rfl⟩ : ∃ n, len = n + 1 := ⟨len - 1, by omega⟩
    simp

theorem replace_keeps_block (blocks : List String) (i : Nat) :
    ∀ (fuel : Nat) (l : List Char), l.length ≤ fuel →
      placeholderList i <:+: l →
      (blocks.getD i "").toList <:+: rewriteScan (placeholderRep blocks) fuel l := by
  intro fuel
  induction fuel with
  | zero =>
    intro l hlen hinf
    have hl : l = [] := by
      cases l with
      | nil => rfl
      | cons a l' => simp at hlen
    subst hl
    rw [List.infix_nil] at hinf
    exact absurd hinf (by simp [placeholderList_cons])
  | succ f ih =>
    intro l hlen hinf
    cases l with
    | nil =>
      rw [List.infix_nil] at hinf
      exact absurd hinf (by simp [placeholderList_cons])
    | cons c cs =>
      cases hm : placeholderRep blocks (c :: cs) with
      | none =>
        simp only [rewriteScan, hm]
        rcases List.infix_cons_iff.1 hinf with hpre | hsuf
        · exfalso
          obtain ⟨t, ht⟩ := hpre
          have hcan := matchPlaceholderAt_canonical i t
          rw [ht] at hcan
          simp [placeholderRep, hcan] at hm
        · exact List.infix_cons (ih cs (by simp at hlen; omega) hsuf)
      | some p =>
        obtain ⟨len, rep⟩ := p
        have hmk : ∃ k, matchPlaceholderAt (c :: cs) = some (k, len) ∧
            rep = (blocks.getD k "").toList := by
          unfold placeholderRep at hm
          cases hmm : matchPlaceholderAt (c :: cs) with
          | none => rw [hmm] at hm; simp at hm
          | some q =>
            obtain ⟨k0, len0⟩ := q
            rw [hmm] at hm
            simp only [Option.map_some', Option.some.injEq, Prod.mk.injEq] at hm
            exact ⟨k0, by rw [hm.1], hm.2.symm⟩
        obtain ⟨k, hmatch, hrep⟩ := hmk
        obtain ⟨ds, rest3, hds, hdsne, hkval, hlenval, hdecomp⟩ :=
          matchPlaceholderAt_shape _ _ _ hmatch
        have h1len : 1 ≤ len := by omega
        rw [rewriteScan_step _ f len _ _ (by simp) hm h1len]
        obtain ⟨s, t, hst⟩ := hinf
        cases s with
        | nil =>
          simp only [List.nil_append] at hst
          have hcan := matchPlaceholderAt_canonical i t
          rw [hst, hmatch] at hcan
          simp only [Option.some.injEq, Prod.mk.injEq] at hcan
          rw [hrep, hcan.1]
          exact (List.prefix_append _ _).isInfix
        | cons c0 s' =>
          have hslen : len ≤ (c0 :: s').length := by
            by_contra hlt
            push_neg at hlt
            have hx1 : (c :: cs)[(c0 :: s').length]? = some '[' := by
              rw [← hst]
              rw [List.getElem?_append_left (by
                simp only [List.length_append, placeholderList_cons]
                simp)]
              rw [List.getElem?_append_right (le_refl _)]
              simp [placeholderList_cons]
            have htoklen : ("[PROTECTED_".toList ++ ds ++ [']']).length = len := by
              simp only [List.length_append]
              rw [show ("[PROTECTED_".toList).length = 11 from by decide]
              simp
              omega
            have hx2 : (c :: cs)[(c0 :: s').length]? =
                ("PROTECTED_".toList ++ ds ++ [']'])[(c0 :: s').length - 1]? := by
              rw [hdecomp]
              rw [List.getElem?_append_left (by omega)]
              rw [show ("[PROTECTED_".toList ++ ds ++ [']'] : List Char) =
                '[' :: ("PROTECTED_".toList ++ ds ++ [']']) from by
                  rw [show ("[PROTECTED_".toList : List Char) =
                    '[' :: "PROTECTED_".toList from by decide]
                  simp]
              obtain ⟨n0, hn0⟩ : ∃ n0, (c0 :: s').length = n0 + 1 :=
                ⟨s'.length, by simp⟩
              rw [hn0, List.getElem?_cons_succ]
              simp
            have hlt2 : (c0 :: s').length - 1 <
                ("PROTECTED_".toList ++ ds ++ [']']).length := by
              have : ("PROTECTED_".toList ++ ds ++ [']']).length + 1 = len := by
                rw [← htoklen]
                rw [show ("[PROTECTED_".toList : List Char) =
                  '[' :: "PROTECTED_".toList from by decide]
                simp
              omega
            rw [hx2, List.getElem?_eq_getElem hlt2] at hx1
            have hmem := List.getElem_mem hlt2
            have := token_interior_no_bracket ds hds _ hmem
            simp only [Option.some.injEq] at hx1
            exact this hx1
          have e1 : len - (c0 :: s').length = 0 := by omega
          have e2 : len - ((c0 :: s') ++ placeholderList i).length = 0 := by
            simp only [List.cons_append, List.length_cons, List.length_append]
            simp only [List.length_cons] at hslen
            omega
          have hdrop : (c :: cs).drop len =
              ((c0 :: s').drop len ++ placeholderList i) ++ t := by
            rw [← hst, List.drop_append_eq_append_drop,
              List.drop_append_eq_append_drop, e1, e2]
            simp
          have hinf2 : placeholderList i <:+: (c :: cs).drop len := by
            rw [hdrop]
            exact ⟨(c0 :: s').drop len, t, rfl⟩
          have hlen2 : ((c :: cs).drop len).length ≤ f := by
            rw [List.length_drop]
            simp only [List.length_cons] at hlen ⊢
            omega
          exact (ih _ hlen2 hinf2).trans (List.suffix_append rep _).isInfix

end ReDraft

namespace ReDraft

theorem toList_mk (l : List Char) : (String.mk l).toList = l := rfl

/-! ## C4 — protected content is never lost -/

/-- C4: every stored block's content occurs in the output of
`restoreProtectedBlocks`; a block whose placeholder token does not occur
in the input text has `'\n'` and its content appended in the tail that
the function concatenates onto the replaced text. -/
theorem restore_never_loses (text : String) (blocks : List String) (i : Nat)
    (h : i < blocks.length) :
    ((blocks.getD i "").toList <:+: (restoreProtectedBlocks text blocks).toList) ∧
    (occursPlaceholder i text = false →
      ('\n' :: (blocks.getD i "").toList) <:+: restoreAppendTail text blocks) := by
  have htail : occursPlaceholder i text = false →
      ('\n' :: (blocks.getD i "").toList) <:+: restoreAppendTail text blocks := by
    intro ho
    unfold restoreAppendTail
    have hmem : ('\n' :: (blocks.getD i "").toList) ∈
        (List.range blocks.length).map (fun j =>
          if occursPlaceholder j text then [] else '\n' :: (blocks.getD j "").toList) := by
      refine List.mem_map.2 ⟨i, List.mem_range.2 h, ?_⟩
      rw [ho]
      simp
    obtain ⟨u, v, huv⟩ := List.append_of_mem hmem
    rw [huv, List.flatten_append, List.flatten_cons]
    exact ⟨u.flatten, v.flatten, by simp⟩
  refine ⟨?_, htail⟩
  show (blocks.getD i "").toList <:+:
    (replaceProtScan blocks text.toList ++ restoreAppendTail text blocks)
  cases ho : occursPlaceholder i text with
  | true =>
    have hinf : placeholderList i <:+: text.toList := of_decide_eq_true ho
    have h1 := replace_keeps_block blocks i text.toList.length text.toList le_rfl hinf
    exact h1.trans (List.prefix_append _ _).isInfix
  | false =>
    have h2 := htail ho
    have h3 : (blocks.getD i "").toList <:+: ('\n' :: (blocks.getD i "").toList) :=
      (List.suffix_cons '\n' _).isInfix
    exact (h3.trans h2).trans (List.suffix_append _ _).isInfix

theorem restore_never_loses_witness :
    (((["X", "Y"] : List String).getD 1 "").toList <:+:
      (restoreProtectedBlocks "a [PROTECTED_0] b" ["X", "Y"]).toList) ∧
    (occursPlaceholder 1 "a [PROTECTED_0] b" = false →
      ('\n' :: ((["X", "Y"] : List String).getD 1 "").toList) <:+:
        restoreAppendTail "a [PROTECTED_0] b" ["X", "Y"]) :=
  restore_never_loses "a [PROTECTED_0] b" ["X", "Y"] 1 (by decide)

/-! ## C10 — out-of-range placeholders are deleted -/

theorem no_bracket_inside (k : Nat) (x : List Char) (n : Nat) (h1 : 1 ≤ n)
    (h2 : n < (placeholderList k).length) :
    (placeholderList k ++ x)[n]? ≠ some '[' := by
  rw [List.getElem?_append_left h2]
  rw [placeholderList_cons]
  obtain ⟨n0, rfl⟩ : ∃ n0, n = n0 + 1 := ⟨n - 1, by omega⟩
  rw [List.getElem?_cons_succ]
  have hlt : n0 < ("PROTECTED_".toList ++ natDecimal k ++ [']']).length := by
    rw [placeholderList_cons] at h2
    simp only [List.length_cons] at h2
    omega
  rw [List.getElem?_eq_getElem hlt]
  intro hcontra
  have hmem := List.getElem_mem hlt
  have hnb := token_interior_no_bracket (natDecimal k) (natDecimal_digits k) _ hmem
  simp only [Option.some.injEq] at hcontra
  exact hnb hcontra

theorem bracket_at_occurrence (i : Nat) (s u : List Char) :
    ((s ++ placeholderList i) ++ u)[s.length]? = some '[' := by
  rw [List.getElem?_append_left (by
    rw [List.length_append, placeholderList_cons]
    simp)]
  rw [List.getElem?_append_right (le_refl _)]
  simp [placeholderList_cons]

/-- Prepending an out-of-range placeholder token does not change whether a
(different-index) placeholder token occurs. -/
theorem occurs_shift (i k : Nat) (hik : i ≠ k) (t : List Char) :
    (placeholderList i <:+: placeholderList k ++ t) ↔
      (placeholderList i <:+: t) := by
  constructor
  · rintro ⟨s, u, hsu⟩
    by_cases hs : (placeholderList k).length ≤ s.length
    · have hteq : t = (s.drop (placeholderList k).length ++ placeholderList i) ++ u := by
        have hdd := congrArg (List.drop (placeholderList k).length) hsu
        rw [List.drop_left] at hdd
        rw [← hdd, List.drop_append_eq_append_drop, List.drop_append_eq_append_drop]
        have e1 : (placeholderList k).length - s.length = 0 := by omega
        have e2 : (placeholderList k).length - (s ++ placeholderList i).length = 0 := by
          simp only [List.length_append]
          omega
        rw [e1, e2]
        simp
      exact ⟨s.drop (placeholderList k).length, u, hteq.symm⟩
    · push_neg at hs
      exfalso
      cases s with
      | nil =>
        simp only [List.nil_append] at hsu
        rw [placeholderList_cons, placeholderList_cons] at hsu
        simp only [List.cons_append, List.cons.injEq, true_and] at hsu
        have hsu2 : "PROTECTED_".toList ++ (natDecimal i ++ (']' :: u)) =
            "PROTECTED_".toList ++ (natDecimal k ++ (']' :: t)) := by
          simpa only [List.append_assoc, List.singleton_append] using hsu
        have hcancel := List.append_cancel_left hsu2
        have hdig := digits_rbracket_unique (natDecimal i) (natDecimal k) u t
          (natDecimal_digits i) (natDecimal_digits k) hcancel
        have : i = k := by
          rw [← parseDec_natDecimal i, ← parseDec_natDecimal k, hdig]
        exact hik this
      | cons c0 s' =>
        have ha := bracket_at_occurrence i (c0 :: s') u
        rw [hsu] at ha
        exact no_bracket_inside k t (c0 :: s').length (by simp) hs ha
  · intro h
    exact h.trans (List.suffix_append _ _).isInfix

end ReDraft

namespace ReDraft

/-- Splitting lemma: no placeholder match can cross the opening `[` of a
placeholder token, so the scan processes the text before an out-of-range
token, the token itself (deleted), and the text after it independently. -/
theorem replace_scan_split (blocks : List String) (k : Nat) (hk : blocks.length ≤ k)
    (t : List Char) :
    ∀ (fuel : Nat) (s : List Char), (s ++ (placeholderList k ++ t)).length ≤ fuel →
      rewriteScan (placeholderRep blocks) fuel (s ++ (placeholderList k ++ t)) =
        rewriteScan (placeholderRep blocks) s.length s ++
          rewriteScan (placeholderRep blocks) t.length t := by
  intro fuel
  induction fuel with
  | zero =>
    intro s hlen
    exfalso
    rw [List.length_append, List.length_append, placeholderList_length] at hlen
    omega
  | succ f ih =>
    intro s hlen
    cases s with
    | nil =>
      simp only [List.nil_append]
      rw [rewriteScan_step _ f (11 + (natDecimal k).length + 1) _
        ((blocks.getD k "").toList) ?hne ?hm ?h1]
      case hne => rw [placeholderList_cons]; simp
      case hm =>
        show placeholderRep blocks (placeholderList k ++ t) = _
        unfold placeholderRep
        rw [matchPlaceholderAt_canonical]
        rfl
      case h1 => omega
      have hempty : (blocks.getD k "").toList = [] := by
        rw [List.getD_eq_default _ _ hk]
        rfl
      rw [hempty, List.nil_append]
      rw [show (11 + (natDecimal k).length + 1) = (placeholderList k).length from
        (placeholderList_length k).symm]
      rw [List.drop_left]
      rw [rewriteScan_fuel _ f t.length t ?l1 le_rfl]
      case l1 =>
        rw [List.nil_append, List.length_append, placeholderList_length] at hlen
        omega
      rfl
    | cons c s' =>
      cases hm : matchPlaceholderAt ((c :: s') ++ (placeholderList k ++ t)) with
      | none =>
        have hms : matchPlaceholderAt (c :: s') = none := by
          cases hm2 : matchPlaceholderAt (c :: s') with
          | none => rfl
          | some r =>
            exfalso
            obtain ⟨k0, len0⟩ := r
            obtain ⟨ds, rest3, hds, hdsne, hkv, hlv, hdec⟩ :=
              matchPlaceholderAt_shape _ _ _ hm2
            have hfull : matchPlaceholderAt ((c :: s') ++ (placeholderList k ++ t)) =
                some (parseDec ds, 11 + ds.length + 1) := by
              rw [hdec, List.append_assoc]
              exact matchPlaceholderAt_token ds _ hds hdsne
            rw [hfull] at hm
            simp at hm
        have hmrep : placeholderRep blocks (c :: (s' ++ (placeholderList k ++ t))) =
            none := by
          simp only [placeholderRep]
          rw [show (c :: (s' ++ (placeholderList k ++ t)) : List Char) =
            (c :: s') ++ (placeholderList k ++ t) from rfl, hm]
          rfl
        have hmsrep : placeholderRep blocks (c :: s') = none := by
          simp [placeholderRep, hms]
        rw [show ((c :: s') ++ (placeholderList k ++ t) : List Char) =
          c :: (s' ++ (placeholderList k ++ t)) from rfl]
        simp only [rewriteScan, hmrep, List.length_cons, hmsrep]
        rw [ih s' (by
          simp only [List.cons_append, List.length_cons] at hlen
          omega)]
        simp
      | some p =>
        obtain ⟨k0, len0⟩ := p
        obtain ⟨ds, rest3, hds, hdsne, hkv, hlv, hdec⟩ :=
          matchPlaceholderAt_shape _ _ _ hm
        have h1len : 1 ≤ len0 := by omega
        have hlen0 : len0 ≤ (c :: s').length := by
          by_contra hlt
          push_neg at hlt
          have ha : ((c :: s') ++ (placeholderList k ++ t))[(c :: s').length]? =
              some '[' := by
            rw [List.getElem?_append_right (le_refl _)]
            simp [placeholderList_cons]
          have hb : ((c :: s') ++ (placeholderList k ++ t))[(c :: s').length]? =
              ("PROTECTED_".toList ++ ds ++ [']'])[(c :: s').length - 1]? := by
            rw [hdec]
            rw [List.getElem?_append_left (by
              simp only [List.length_append]
              rw [show ("[PROTECTED_".toList).length = 11 from by decide]
              simp only [List.length_cons, List.length_nil]
              simp only [List.length_cons] at hlt
              omega)]
            rw [show ("[PROTECTED_".toList ++ ds ++ [']'] : List Char) =
              '[' :: ("PROTECTED_".toList ++ ds ++ [']']) from by
                rw [show ("[PROTECTED_".toList : List Char) =
                  '[' :: "PROTECTED_".toList from by decide]
                simp]
            obtain ⟨n0, hn0⟩ : ∃ n0, (c :: s').length = n0 + 1 := ⟨s'.length, by simp⟩
            rw [hn0, List.getElem?_cons_succ]
            simp
          have hlt2 : (c :: s').length - 1 <
              ("PROTECTED_".toList ++ ds ++ [']']).length := by
            have hx : ("PROTECTED_".toList ++ ds ++ [']']).length + 1 = len0 := by
              simp only [List.length_append]
              rw [show ("PROTECTED_".toList).length = 10 from by decide]
              simp only [List.length_cons, List.length_nil]
              omega
            omega
          rw [hb, List.getElem?_eq_getElem hlt2] at ha
          have hmem := List.getElem_mem hlt2
          have hnb := token_interior_no_bracket ds hds _ hmem
          simp only [Option.some.injEq] at ha
          exact hnb ha
        have htake : (c :: s').take len0 = "[PROTECTED_".toList ++ ds ++ [']'] := by
          have h1 : ((c :: s') ++ (placeholderList k ++ t)).take len0 =
              "[PROTECTED_".toList ++ ds ++ [']'] := by
            rw [hdec]
            exact List.take_left' (by
              simp only [List.length_append]
              rw [show ("[PROTECTED_".toList).length = 11 from by decide]
              simp only [List.length_cons, List.length_nil]
              omega)
          rw [← h1]
          rw [List.take_append_eq_append_take]
          have he : len0 - (c :: s').length = 0 := by omega
          rw [he]
          simp
        have hs_decomp : (c :: s') =
            ("[PROTECTED_".toList ++ ds ++ [']']) ++ (c :: s').drop len0 := by
          conv_lhs => rw [← List.take_append_drop len0 (c :: s')]
          rw [htake]
        have hms : matchPlaceholderAt (c :: s') =
            some (parseDec ds, 11 + ds.length + 1) := by
          conv_lhs => rw [hs_decomp]
          exact matchPlaceholderAt_token ds _ hds hdsne
        have hmrep : placeholderRep blocks ((c :: s') ++ (placeholderList k ++ t)) =
            some (len0, (blocks.getD k0 "").toList) := by
          unfold placeholderRep
          rw [hm]
          rfl
        have hmsrep : placeholderRep blocks (c :: s') =
            some (len0, (blocks.getD k0 "").toList) := by
          unfold placeholderRep
          rw [hms]
          simp only [Option.map_some']
          rw [← hkv, ← hlv]
        rw [rewriteScan_step _ f len0 _ _ (by simp) hmrep h1len]
        rw [show ((c :: s').length : Nat) = s'.length + 1 from rfl]
        rw [rewriteScan_step _ s'.length len0 (c :: s') _ (by simp) hmsrep h1len]
        have hdrop : ((c :: s') ++ (placeholderList k ++ t)).drop len0 =
            (c :: s').drop len0 ++ (placeholderList k ++ t) := by
          rw [List.drop_append_eq_append_drop]
          have he : len0 - (c :: s').length = 0 := by omega
          rw [he]
          simp
        rw [hdrop]
        rw [ih ((c :: s').drop len0) (by
          simp only [List.length_append, List.length_drop, List.length_cons] at hlen ⊢
          omega)]
        rw [rewriteScan_fuel _ s'.length ((c :: s').drop len0).length
          ((c :: s').drop len0) (by
            rw [List.length_drop]
            simp only [List.length_cons]
            omega) le_rfl]
        simp

/-- C10: `restoreProtectedBlocks` replaces every occurrence — anywhere in
the text — of a placeholder token whose index is out of range for the
block list with the empty string: the text before and after the token is
processed exactly as it would be on its own, and the token contributes
nothing, both in the replacement pass and in the full function's output. -/
theorem out_of_range_placeholder_deleted (blocks : List String) (k : Nat)
    (s t : List Char) (h : blocks.length ≤ k) :
    replaceProtScan blocks (s ++ placeholderList k ++ t) =
      replaceProtScan blocks s ++ replaceProtScan blocks t ∧
    restoreProtectedBlocks (String.mk (s ++ placeholderList k ++ t)) blocks =
      String.mk ((replaceProtScan blocks s ++ replaceProtScan blocks t) ++
        restoreAppendTail (String.mk (s ++ placeholderList k ++ t)) blocks) := by
  have hrep : replaceProtScan blocks (s ++ placeholderList k ++ t) =
      replaceProtScan blocks s ++ replaceProtScan blocks t := by
    unfold replaceProtScan
    rw [List.append_assoc]
    exact replace_scan_split blocks k h t _ s le_rfl
  refine ⟨hrep, ?_⟩
  unfold restoreProtectedBlocks
  rw [toList_mk, hrep]

theorem out_of_range_placeholder_deleted_witness :
    replaceProtScan [] ("a".toList ++ placeholderList 7 ++ "b".toList) =
      replaceProtScan [] "a".toList ++ replaceProtScan [] "b".toList ∧
    restoreProtectedBlocks
        (String.mk ("a".toList ++ placeholderList 7 ++ "b".toList)) [] =
      String.mk ((replaceProtScan [] "a".toList ++ replaceProtScan [] "b".toList) ++
        restoreAppendTail
          (String.mk ("a".toList ++ placeholderList 7 ++ "b".toList)) []) :=
  out_of_range_placeholder_deleted [] 7 "a".toList "b".toList (by decide)

end ReDraft
